import Mathlib

/-!
# Verification of the dataset-to-training pipeline (TFhelper)

Shallow embedding of the training-pipeline source (`fileToTensor`,
`folderToTensors`, the inner `shuffleCombo`, and `learnTransferModel`).

Modelling conventions:
* tf float32 values are modelled as exact rationals `ℚ`;
* a tensor of shape `[N, ...]` is a list of `N` flattened pixel rows;
* the external decode/resize step (`tf.node.decodeImage` + `tf.image.resizeBilinear`)
  is an input of the model: an `ImageFile` carries either the decoded-and-resized
  pixel row (values produced from `uint8` data by bilinear interpolation, hence in
  `[0, 255]`) or a decode error;
* `Math.random`-driven index draws are passed explicitly: at loop counter `c` the
  expression `(Math.random() * c) | 0` yields `rand c` with `rand c < c`;
* promise resolution/rejection is an explicit outcome value, and the
  `process.exit(1)` side effect is an explicit boolean.
-/

/-- A file discovered by `glob(dirPath + "/*/*.@(png|jpeg|jpg|bmp)")`:
its label (`path.basename(path.dirname(file))`, the immediate parent directory)
and the result of decoding and bilinear-resizing its bytes
(`tf.node.decodeImage` / `tf.image.resizeBilinear`), which either fails or
yields the flattened pixel row. -/
structure ImageFile where
  label : String
  decoded : Except String (List ℚ)

/-- Model of `fileToTensor` (part_000 lines 12-18): read and decode the image
(may throw a decode error), then `resizedTensor.div(tf.scalar(255))` divides
every pixel value by 255. -/
def fileToTensor (f : ImageFile) : Except String (List ℚ) :=
  match f.decoded with
  | .error e => .error e
  | .ok px => .ok (px.map (fun p => p / 255))

/-- The three accumulator arrays of `folderToTensors` (part_000 lines 28-30):
`XS` (image tensors), `YS` (numeric labels), `dirs` (label names). -/
structure LoadState where
  XS : List (List ℚ)
  YS : List Nat
  dirs : List String

/-- One iteration of the `files.forEach` body (part_000 lines 38-47): record the
label name if new, compute `answer = dirs.indexOf(dir)`, convert the file
(which may throw), and push onto `YS` and `XS`. -/
def loadStep (st : LoadState) (f : ImageFile) : Except String LoadState :=
  let dir := f.label
  let dirs1 := if dir ∈ st.dirs then st.dirs else st.dirs ++ [dir]
  let answer := dirs1.indexOf dir
  match fileToTensor f with
  | .error e => .error e
  | .ok t => .ok ⟨st.XS ++ [t], st.YS ++ [answer], dirs1⟩

/-- The `files.forEach` loop of `folderToTensors`: a thrown decode error aborts
the whole iteration (no later file is visited). -/
def processFiles (st : LoadState) : List ImageFile → Except String LoadState
  | [] => .ok st
  | f :: fs =>
    match loadStep st f with
    | .error e => .error e
    | .ok st1 => processFiles st1 fs

/-- The swap performed inside the loop body of `shuffleCombo` (part_000 lines 63-68):
`temp = a[c]; a[c] = a[i]; a[i] = temp`.  In the source both indices are always
in bounds (`counter ≤ length` and `index < counter`). -/
def listSwap {α : Type _} (l : List α) (i j : Nat) : List α :=
  match l[i]?, l[j]? with
  | some a, some b => (l.set i b).set j a
  | _, _ => l

/-- The `while (counter > 0)` loop of `shuffleCombo` (part_000 lines 59-69),
acting on both parallel arrays: at counter `c + 1` it draws
`index = (Math.random() * counter) | 0 = rand (c + 1)`, decrements the counter
and swaps positions `c` and `index` in both arrays simultaneously. -/
def shuffleComboGo {α β : Type _} (rand : Nat → Nat) :
    Nat → List α × List β → List α × List β
  | 0, p => p
  | c + 1, (a, b) =>
    let index := rand (c + 1)
    shuffleComboGo rand c (listSwap a c index, listSwap b c index)

/-- Model of `shuffleCombo(array, array2)` (part_000 lines 54-70): the counter
starts at `array.length` (the length of the first array). -/
def shuffleCombo {α β : Type _} (rand : Nat → Nat) (a : List α) (b : List β) :
    List α × List β :=
  shuffleComboGo rand a.length (a, b)

/-- The condition checked by `console.assert(array.length === array2.length)`
at part_000 line 56. -/
def shuffleComboAssertion {α β : Type _} (a : List α) (b : List β) : Bool :=
  a.length == b.length

/-- One row of `tf.oneHot`: a vector of length `k` holding `1` at position `y`
and `0` elsewhere (all zeros when `y ≥ k`). -/
def oneHotRow (y : Nat) (k : Nat) : List ℚ :=
  (List.range k).map (fun j => if j = y then 1 else 0)

/-- The rows built by a successful `tf.oneHot` call: one `oneHotRow` per
index. -/
def oneHotRows (ys : List Nat) (k : Nat) : List (List ℚ) :=
  ys.map (fun y => oneHotRow y k)

/-- Model of `Y = tf.oneHot(YS, dirs.length)` (part_000 line 75).  tfjs
validates its `depth` argument and throws `Error in oneHot: depth must be >=2`
when fewer than two classes are requested; only for `k ≥ 2` does it build the
one-hot rows. -/
def oneHot (ys : List Nat) (k : Nat) : Except String (List (List ℚ)) :=
  if k < 2 then .error "Error in oneHot: depth must be >=2"
  else .ok (oneHotRows ys k)

/-- Model of `X = tf.stack(XS)` (part_000 line 74): tfjs throws
`Pass at least one tensor to tf.stack` on an empty list, and otherwise stacks
the rows. -/
def stack (xs : List (List ℚ)) : Except String (List (List ℚ)) :=
  if xs.isEmpty then .error "Pass at least one tensor to tf.stack"
  else .ok xs

/-- How the promise of `folderToTensors` settles.  The `.catch` handler
(part_000 lines 88-92) calls `reject()` with no argument, so a rejection
carries no error value at all. -/
inductive FolderOutcome
  | resolved (XNORM : List (List ℚ)) (Y : List (List ℚ)) (dirs : List String)
  | rejectedEmpty
deriving DecidableEq

/-- Model of `folderToTensors` (part_000 lines 26-94).  Input: the settled
result of the `glob` enumeration (a file list, or an enumeration error) and
the random source.  On enumeration failure, or on any error thrown inside the
`then` callback (in particular a decode failure of any file), control reaches
the `.catch` handler, which calls `reject()` (no value) and then
`process.exit(1)`; the returned boolean records whether `process.exit(1)` ran.
The throwing callees inside the `then` callback are the per-file decode, the
`tf.stack` call (empty file list) and the `tf.oneHot` call (fewer than two
labels) — each of those failures also lands in the `.catch` handler.
Otherwise it shuffles `XS`/`YS` jointly, stacks `X`, one-hot encodes `Y`,
divides the already-normalized stack by 255 a second time
(`XNORM = X.div(255)`, line 82) and resolves `[XNORM, Y, dirs]`. -/
def folderToTensors (rand : Nat → Nat) (enum : Except String (List ImageFile)) :
    FolderOutcome × Bool :=
  match enum with
  | .error _ => (.rejectedEmpty, true)
  | .ok files =>
    match processFiles ⟨[], [], []⟩ files with
    | .error _ => (.rejectedEmpty, true)
    | .ok st =>
      let p := shuffleCombo rand st.XS st.YS
      match stack p.1, oneHot p.2 st.dirs.length with
      | .ok X, .ok Y =>
        (.resolved (X.map (fun row => row.map (fun v => v / 255))) Y st.dirs, false)
      | _, _ => (.rejectedEmpty, true)

/-- A quick sanity check value used in concrete theorems: a one-pixel file of
maximal brightness (a `uint8` value 255 pixel). -/
def brightFile : ImageFile := ⟨"cat", .ok [255]⟩

/-- A second-label companion for `brightFile`, so that the folder has the two
classes `tf.oneHot` requires. -/
def darkFile : ImageFile := ⟨"dog", .ok [0]⟩

/-- Observer events emitted over the Socket.IO channel by `learnTransferModel`
(part_000 lines 102-162): the `log`, `updateProgress` and `learnCompleted`
messages sent through `socket.emit`. -/
inductive Event
  | log (msg : String)
  | updateProgress (epoch : Nat)
  | learnCompleted
deriving DecidableEq

/-- The epoch count hard-coded in the `transferModel.fit` options
(part_000 line 144). -/
def epochCount : Nat := 100

/-- Events produced while `transferModel.fit` runs (part_000 lines 143-155):
`fit` with `epochs` epochs and no early stopping invokes `onEpochEnd` once per
epoch with epoch indices `0, 1, ..., epochs - 1` in order, and the callback
emits `updateProgress(epoch)` exactly when a socket is attached. -/
def fitEvents (socket : Bool) (epochs : Nat) : List Event :=
  if socket then (List.range epochs).map Event.updateProgress else []

/-- The shape of a stacked 2-d tensor `[rows, columns]`, as interpolated into
the log message `Features stack ${featureX.shape}`. -/
def shapeString (t : List (List ℚ)) : String :=
  String.intercalate "," ([t.length, (t.headD []).length].map toString)

/-- The environment of one `learnTransferModel` run: the settled file
enumeration, the random source, the result of `tf.loadGraphModel` (the frozen
MobileNet backbone as an embedding function, or a load failure), and the
training procedure applied by `transferModel.fit` (its per-epoch accuracy
history as a function of features and one-hot labels). -/
structure TrainEnv where
  enum : Except String (List ImageFile)
  rand : Nat → Nat
  loadModel : Except String (List (List ℚ) → List (List ℚ))
  fit : List (List ℚ) → List (List ℚ) → List ℚ

/-- Everything `learnTransferModel` computes in a successful run: the dataset
returned by `folderToTensors`, the extracted features and the training
history. -/
structure RunResult where
  X : List (List ℚ)
  Y : List (List ℚ)
  dirs : List String
  features : List (List ℚ)
  history : List ℚ
deriving DecidableEq

/-- Model of `learnTransferModel` (part_000 lines 102-162).  The socket is
optional (`socket = null` is modelled by `socket = false`); every
`socket.emit` in the source is guarded by `if (socket)`, and nothing else
reads the socket.  The computation stops early (promise rejection) if
`folderToTensors` rejects or the backbone fails to load; otherwise it extracts
features, fits the head for `epochCount` epochs and emits the final events. -/
def learnTransferModel (env : TrainEnv) (socket : Bool) :
    Option RunResult × List Event :=
  let ev0 := if socket then [Event.log "loading images"] else []
  match folderToTensors env.rand env.enum with
  | (FolderOutcome.rejectedEmpty, _) => (none, ev0)
  | (FolderOutcome.resolved X Y dirs, _) =>
    let ev1 := ev0 ++ (if socket then [Event.log "loading model"] else [])
    match env.loadModel with
    | .error _ => (none, ev1)
    | .ok backbone =>
      let ev2 := ev1 ++ (if socket then [Event.log "creating features"] else [])
      let featureX := backbone X
      let ev3 := ev2 ++
        (if socket then [Event.log ("Features stack " ++ shapeString featureX)] else [])
      let history := env.fit featureX Y
      let ev4 := ev3 ++ fitEvents socket epochCount
      let ev5 := ev4 ++
        (if socket then [Event.log "learned", Event.learnCompleted] else [])
      (some ⟨X, Y, dirs, featureX, history⟩, ev5)

/-- Modelled from the spec (§4.2): the paired Fisher-Yates shuffle as the spec
words it — "iterate an index counter from N−1 down to 1; at each step draw a
uniformly random index in [0, counter] and swap both sequences' elements at
`counter` and the drawn index simultaneously".  `draw c` is the index drawn
while the counter is `c`. -/
def specPairedFY {α β : Type _} (draw : Nat → Nat) :
    Nat → List α × List β → List α × List β
  | 0, p => p
  | c + 1, (a, b) =>
    specPairedFY draw c (listSwap a (c + 1) (draw (c + 1)), listSwap b (c + 1) (draw (c + 1)))

/-- Modelled from the spec (§4.2): the paired Fisher-Yates shuffle of two
sequences of length `N`, with the counter starting at `N − 1`. -/
def specFisherYates {α β : Type _} (draw : Nat → Nat) (a : List α) (b : List β) :
    List α × List β :=
  specPairedFY draw (a.length - 1) (a, b)

/-- The space of random draws consumed by one shuffle of `n` elements: while
the counter is `c + 1` the draw `(Math.random() * counter) | 0` is an element
of `[0, c]`.  There are `n!` such draw vectors. -/
abbrev DrawVec (n : Nat) := (c : Fin n) → Fin (c.1 + 1)

/-- Interpret a draw vector as a random source for `shuffleCombo`: at counter
`c + 1` the drawn index is `d c`. -/
def vecToRand {n : Nat} (d : DrawVec n) : Nat → Nat := fun c =>
  if h : c - 1 < n then (d ⟨c - 1, h⟩).1 else 0

/-- The shuffle as a function of a draw vector: structurally recursive version
of the loop of `shuffleCombo` on a single list, used to count draw vectors. -/
def fyVec {α : Type _} : {n : Nat} → DrawVec n → List α → List α
  | 0, _, l => l
  | n + 1, d, l => fyVec (fun c => d c.castSucc) (listSwap l n (d (Fin.last n)).1)

/-- Single-list version of the loop of `shuffleCombo` (both components of
`shuffleComboGo` evolve independently by the same swaps). -/
def shuffleOne {α : Type _} (rand : Nat → Nat) : Nat → List α → List α
  | 0, l => l
  | c + 1, l => shuffleOne rand c (listSwap l c (rand (c + 1)))

/-- The evolution of the `dirs` accumulator alone over a sequence of label
names (the first two statements of the `forEach` body). -/
def foldDirs (dirs : List String) : List String → List String
  | [] => dirs
  | d :: ls => foldDirs (if d ∈ dirs then dirs else dirs ++ [d]) ls

/-- The numeric labels (`answer = dirs.indexOf(dir)`) pushed onto `YS` over a
sequence of label names, starting from accumulator `dirs`. -/
def labelIdxs (dirs : List String) : List String → List Nat
  | [] => []
  | d :: ls =>
    let dirs1 := if d ∈ dirs then dirs else dirs ++ [d]
    dirs1.indexOf d :: labelIdxs dirs1 ls

/-- The distinct label names of `ls` that are not in `seen`, in order of first
appearance in `ls`. -/
def firstsNotIn (seen : List String) : List String → List String
  | [] => []
  | d :: ls =>
    if d ∈ seen then firstsNotIn seen ls else d :: firstsNotIn (d :: seen) ls

/-- Extract the epoch payload of a progress event. -/
def progressEpoch : Event → Option Nat
  | .updateProgress e => some e
  | _ => none

/-- Concrete fixtures for witnesses: the spec's label-assignment example
`[catA/1.png, catB/2.png, catA/3.png]` and a corrupt file. -/
def fileA1 : ImageFile := ⟨"catA", .ok [0]⟩

def fileB2 : ImageFile := ⟨"catB", .ok [128]⟩

def fileA3 : ImageFile := ⟨"catA", .ok [255]⟩

def badFile : ImageFile := ⟨"dog", .error "DecodeError: unsupported image format"⟩

/-- A fully successful concrete environment for `learnTransferModel`. -/
def envOk : TrainEnv :=
  ⟨.ok [fileA1, fileB2, fileA3], fun _ => 0, .ok id, fun _ _ => []⟩

/-- The loader state reached after processing the three example files. -/
def stExample : LoadState := ⟨[[0], [128/255], [1]], [0, 1, 0], ["catA", "catB"]⟩

/-- The run result computed by `learnTransferModel` over `envOk` (the shuffle
with the all-zero random source reverses a rotation of the three samples). -/
def runOk : RunResult :=
  ⟨[[128/65025], [1/255], [0]], [[0, 1], [1, 0], [1, 0]], ["catA", "catB"],
   [[128/65025], [1/255], [0]], []⟩

theorem set_self_eq {α : Type _} (l : List α) : ∀ i (h : i < l.length), l.set i l[i] = l := by
  induction l with
  | nil => intro i h; simp at h
  | cons x xs ih =>
    intro i h
    cases i with
    | zero => simp
    | succ k => simpa using ih k (by simpa using h)

theorem cons_set_perm {α : Type _} (x : α) :
    ∀ (xs : List α) (m : Nat) (b : α), xs[m]? = some b →
      List.Perm (b :: xs.set m x) (x :: xs) := by
  intro xs
  induction xs with
  | nil => intro m b h; simp at h
  | cons y ys ih =>
    intro m b h
    cases m with
    | zero =>
      simp only [List.getElem?_cons_zero, Option.some_inj] at h
      subst h
      simpa using List.Perm.swap x y ys
    | succ k =>
      simp only [List.getElem?_cons_succ] at h
      simp only [List.set_cons_succ]
      exact (List.Perm.swap y b _).trans (((ih k b h).cons y).trans (List.Perm.swap x y ys))

theorem set_set_perm {α : Type _} :
    ∀ (l : List α) (i j : Nat) (hi : i < l.length) (hj : j < l.length),
      List.Perm ((l.set i l[j]).set j l[i]) l := by
  intro l
  induction l with
  | nil => intro i j hi hj; simp at hi
  | cons x xs ih =>
    intro i j hi hj
    cases i with
    | zero =>
      cases j with
      | zero => simp
      | succ m =>
        have hm : m < xs.length := by simpa using hj
        simp only [List.getElem_cons_succ, List.getElem_cons_zero, List.set_cons_zero,
          List.set_cons_succ]
        exact cons_set_perm x xs m xs[m] (List.getElem?_eq_getElem hm)
    | succ k =>
      cases j with
      | zero =>
        have hk : k < xs.length := by simpa using hi
        simp only [List.getElem_cons_succ, List.getElem_cons_zero, List.set_cons_zero,
          List.set_cons_succ]
        exact cons_set_perm x xs k xs[k] (List.getElem?_eq_getElem hk)
      | succ m =>
        simp only [List.getElem_cons_succ, List.set_cons_succ]
        exact (ih k m (by simpa using hi) (by simpa using hj)).cons x

theorem listSwap_perm {α : Type _} (l : List α) (i j : Nat) :
    List.Perm (listSwap l i j) l := by
  unfold listSwap
  cases h1 : l[i]? with
  | none => exact List.Perm.refl l
  | some a =>
    cases h2 : l[j]? with
    | none => exact List.Perm.refl l
    | some b =>
      obtain ⟨hi, rfl⟩ := List.getElem?_eq_some.mp h1
      obtain ⟨hj, rfl⟩ := List.getElem?_eq_some.mp h2
      exact set_set_perm l i j hi hj

theorem listSwap_length {α : Type _} (l : List α) (i j : Nat) :
    (listSwap l i j).length = l.length := by
  unfold listSwap
  cases h1 : l[i]? <;> cases h2 : l[j]? <;> simp

theorem listSwap_self {α : Type _} (l : List α) (i : Nat) : listSwap l i i = l := by
  unfold listSwap
  cases h : l[i]? with
  | none => rfl
  | some a =>
    obtain ⟨hi, rfl⟩ := List.getElem?_eq_some.mp h
    simp only [List.set_set]
    exact set_self_eq l i hi

theorem listSwap_append {α : Type _} (m t : List α) (k j : Nat)
    (hk : k < m.length) (hj : j < m.length) :
    listSwap (m ++ t) k j = listSwap m k j ++ t := by
  unfold listSwap
  have h1 : (m ++ t)[k]? = some m[k] := by
    simp [List.getElem?_append, hk, List.getElem?_eq_getElem]
  have h2 : (m ++ t)[j]? = some m[j] := by
    simp [List.getElem?_append, hj, List.getElem?_eq_getElem]
  simp only [h1, h2, List.getElem?_eq_getElem hk, List.getElem?_eq_getElem hj]
  simp [List.set_append, hk, hj, List.length_set]

theorem listSwap_getElem_fst {α : Type _} (l : List α) (i j : Nat)
    (hi : i < l.length) (hj : j < l.length) :
    (listSwap l i j)[i]? = some l[j] := by
  unfold listSwap
  simp only [List.getElem?_eq_getElem hi, List.getElem?_eq_getElem hj]
  by_cases hij : j = i
  · subst hij
    rw [List.set_set, set_self_eq l j hj]
    exact List.getElem?_eq_getElem hj
  · rw [List.getElem?_set]
    simp only [hij, if_false]
    rw [List.getElem?_set]
    simp [hi]

theorem zip_set {α β : Type _} :
    ∀ (a : List α) (b : List β) (i : Nat) (x : α) (y : β),
      (a.set i x).zip (b.set i y) = (a.zip b).set i (x, y) := by
  intro a
  induction a with
  | nil => intro b i x y; simp
  | cons xa as ih =>
    intro b i x y
    cases b with
    | nil => simp
    | cons yb bs =>
      cases i with
      | zero => simp
      | succ k => simp [ih]

theorem zip_listSwap {α β : Type _} (a : List α) (b : List β) (i j : Nat)
    (h : a.length = b.length) :
    (listSwap a i j).zip (listSwap b i j) = listSwap (a.zip b) i j := by
  have hzl : (a.zip b).length = a.length := by
    simp [List.length_zip, h]
  unfold listSwap
  by_cases hi : i < a.length
  · by_cases hj : j < a.length
    · have hib : i < b.length := h ▸ hi
      have hjb : j < b.length := h ▸ hj
      have hiz : i < (a.zip b).length := hzl ▸ hi
      have hjz : j < (a.zip b).length := hzl ▸ hj
      simp only [List.getElem?_eq_getElem hi, List.getElem?_eq_getElem hj,
        List.getElem?_eq_getElem hib, List.getElem?_eq_getElem hjb,
        List.getElem?_eq_getElem hiz, List.getElem?_eq_getElem hjz,
        List.getElem_zip]
      rw [zip_set, zip_set]
    · have haj : a[j]? = none := List.getElem?_eq_none (by omega)
      have hbj : b[j]? = none := List.getElem?_eq_none (by omega)
      have hzj : (a.zip b)[j]? = none := List.getElem?_eq_none (by omega)
      simp only [List.getElem?_eq_getElem hi, haj, hbj, hzj,
        List.getElem?_eq_getElem (h ▸ hi : i < b.length),
        List.getElem?_eq_getElem (hzl ▸ hi : i < (a.zip b).length)]
  · have hai : a[i]? = none := List.getElem?_eq_none (by omega)
    have hbi : b[i]? = none := List.getElem?_eq_none (by omega)
    have hzi : (a.zip b)[i]? = none := List.getElem?_eq_none (by omega)
    simp only [hai, hbi, hzi]

theorem shuffleComboGo_eq {α β : Type _} (rand : Nat → Nat) :
    ∀ (n : Nat) (a : List α) (b : List β),
      shuffleComboGo rand n (a, b) = (shuffleOne rand n a, shuffleOne rand n b) := by
  intro n
  induction n with
  | zero => intro a b; rfl
  | succ c ih => intro a b; simp only [shuffleComboGo, shuffleOne]; exact ih _ _

theorem shuffleOne_perm {α : Type _} (rand : Nat → Nat) :
    ∀ (n : Nat) (l : List α), List.Perm (shuffleOne rand n l) l := by
  intro n
  induction n with
  | zero => intro l; exact List.Perm.refl l
  | succ c ih =>
    intro l
    exact (ih _).trans (listSwap_perm l c (rand (c + 1)))

theorem shuffleOne_length {α : Type _} (rand : Nat → Nat) (n : Nat) (l : List α) :
    (shuffleOne rand n l).length = l.length :=
  (shuffleOne_perm rand n l).length_eq

theorem zip_shuffleOne {α β : Type _} (rand : Nat → Nat) :
    ∀ (n : Nat) (a : List α) (b : List β), a.length = b.length →
      (shuffleOne rand n a).zip (shuffleOne rand n b) = shuffleOne rand n (a.zip b) := by
  intro n
  induction n with
  | zero => intro a b _; rfl
  | succ c ih =>
    intro a b h
    simp only [shuffleOne]
    rw [ih _ _ (by rw [listSwap_length, listSwap_length, h]),
      zip_listSwap a b c (rand (c + 1)) h]

theorem shuffleCombo_zip_perm {α β : Type _} (rand : Nat → Nat)
    (a : List α) (b : List β) (h : a.length = b.length) :
    List.Perm ((shuffleCombo rand a b).1.zip (shuffleCombo rand a b).2) (a.zip b) := by
  unfold shuffleCombo
  rw [shuffleComboGo_eq, zip_shuffleOne rand a.length a b h]
  exact shuffleOne_perm rand a.length (a.zip b)

/-- Claim C3: for any two parallel sequences of equal length and any random
draws, after `shuffleCombo` the zipped output is a permutation of the zipped
input; in particular every output position holds an original (image, label)
pair, so each image keeps the label it was paired with. -/
theorem shuffleCombo_pairing_invariant {α β : Type _} (rand : Nat → Nat) (a : List α) (b : List β)
    (h : a.length = b.length) :
    List.Perm ((shuffleCombo rand a b).1.zip (shuffleCombo rand a b).2) (a.zip b)
    ∧ ∀ i (h1 : i < (shuffleCombo rand a b).1.length)
        (h2 : i < (shuffleCombo rand a b).2.length),
        ((shuffleCombo rand a b).1.get ⟨i, h1⟩, (shuffleCombo rand a b).2.get ⟨i, h2⟩)
          ∈ a.zip b := by
  refine ⟨shuffleCombo_zip_perm rand a b h, ?_⟩
  intro i h1 h2
  have hz : i < ((shuffleCombo rand a b).1.zip (shuffleCombo rand a b).2).length := by
    simp [List.length_zip]; omega
  have hin : ((shuffleCombo rand a b).1.zip (shuffleCombo rand a b).2)[i]
      ∈ (shuffleCombo rand a b).1.zip (shuffleCombo rand a b).2 := List.getElem_mem hz
  rw [List.getElem_zip] at hin
  simpa using (shuffleCombo_zip_perm rand a b h).mem_iff.mp hin

theorem vecToRand_le {n : Nat} (d : DrawVec n) (c : Nat) : vecToRand d (c + 1) ≤ c := by
  unfold vecToRand
  simp only [Nat.add_sub_cancel]
  by_cases h : c < n
  · simp only [h, dif_pos]
    exact Nat.lt_succ_iff.mp (d ⟨c, h⟩).2
  · simp [h]

theorem shuffleOne_congr {α : Type _} (rand rand' : Nat → Nat) :
    ∀ (n : Nat), (∀ c, c < n → rand (c + 1) = rand' (c + 1)) →
      ∀ (l : List α), shuffleOne rand n l = shuffleOne rand' n l := by
  intro n
  induction n with
  | zero => intro _ l; rfl
  | succ c ih =>
    intro h l
    simp only [shuffleOne]
    rw [h c (Nat.lt_succ_self c)]
    exact ih (fun c0 hc0 => h c0 (Nat.lt_succ_of_lt hc0)) _

theorem fyVec_eq_shuffleOne {α : Type _} :
    ∀ (n : Nat) (d : DrawVec n) (l : List α),
      fyVec d l = shuffleOne (vecToRand d) n l := by
  intro n
  induction n with
  | zero => intro d l; rfl
  | succ n ih =>
    intro d l
    simp only [fyVec, shuffleOne]
    have hlast : vecToRand d (n + 1) = (d (Fin.last n)).1 := by
      unfold vecToRand
      simp only [Nat.add_sub_cancel, Nat.lt_succ_self, dif_pos]
      rfl
    rw [hlast]
    rw [ih (fun c => d c.castSucc) (listSwap l n (d (Fin.last n)).1)]
    refine shuffleOne_congr _ _ n (fun c hc => ?_) _
    unfold vecToRand
    simp only [Nat.add_sub_cancel, hc, Nat.lt_succ_of_lt hc, dif_pos]
    rfl

theorem fyVec_perm {α : Type _} {n : Nat} (d : DrawVec n) (l : List α) :
    List.Perm (fyVec d l) l := by
  rw [fyVec_eq_shuffleOne]
  exact shuffleOne_perm _ n l

theorem fyVec_append {α : Type _} :
    ∀ (n : Nat) (d : DrawVec n) (m t : List α), n ≤ m.length →
      fyVec d (m ++ t) = fyVec d m ++ t := by
  intro n
  induction n with
  | zero => intro d m t _; rfl
  | succ n ih =>
    intro d m t h
    simp only [fyVec]
    have hn : n < m.length := h
    have hi : ((d (Fin.last n)).1 : Nat) < m.length :=
      lt_of_lt_of_le (d (Fin.last n)).2 h
    rw [listSwap_append m t n (d (Fin.last n)).1 hn hi]
    exact ih _ _ _ (le_trans (Nat.le_succ n) (by rw [listSwap_length]; exact h))

theorem take_append_last {α : Type _} (L : List α) (n : Nat) (h : L.length = n + 1)
    (z : α) (hz : L[n]? = some z) : L = L.take n ++ [z] := by
  obtain ⟨hn, hzz⟩ := List.getElem?_eq_some.mp hz
  conv_lhs => rw [← List.take_append_drop n L]
  congr 1
  rw [List.drop_eq_getElem_cons hn, hzz]
  congr 1
  rw [show n + 1 = L.length from h.symm]
  exact List.drop_length L

theorem fyVec_existsUnique {α : Type _} [DecidableEq α] :
    ∀ (n : Nat) (l l' : List α), l.length = n → l.Nodup → List.Perm l' l →
      ∃! d : DrawVec n, fyVec d l = l' := by
  intro n
  induction n with
  | zero =>
    intro l l' hl _ hp
    have hle : l = [] := List.length_eq_zero.mp hl
    subst hle
    have hle' : l' = [] := List.perm_nil.mp hp
    subst hle'
    refine ⟨fun c => c.elim0, rfl, ?_⟩
    intro d' _
    funext c
    exact c.elim0
  | succ n ih =>
    intro l l' hl hnd hp
    have hl' : l'.length = n + 1 := hp.length_eq.trans hl
    have hn : n < l.length := by omega
    have hn' : n < l'.length := by omega
    obtain ⟨x, hx⟩ : ∃ x, l'[n]? = some x := ⟨l'[n], List.getElem?_eq_getElem hn'⟩
    have hxl' : x ∈ l' := by
      obtain ⟨hb, he⟩ := List.getElem?_eq_some.mp hx
      exact he ▸ List.getElem_mem hb
    have hxl : x ∈ l := hp.mem_iff.mp hxl'
    have hilt : l.indexOf x < l.length := List.indexOf_lt_length.mpr hxl
    have hile : l.indexOf x ≤ n := by omega
    have hig : l[l.indexOf x]? = some x := by
      rw [List.getElem?_eq_getElem hilt, List.getElem_indexOf hilt]
    have hLlen : (listSwap l n (l.indexOf x)).length = n + 1 := by
      rw [listSwap_length]; exact hl
    have hLget : (listSwap l n (l.indexOf x))[n]? = some x := by
      rw [listSwap_getElem_fst l n (l.indexOf x) hn hilt]
      obtain ⟨h1, h2⟩ := List.getElem?_eq_some.mp hig
      exact congrArg some h2
    have hLsplit : listSwap l n (l.indexOf x)
        = (listSwap l n (l.indexOf x)).take n ++ [x] :=
      take_append_last _ n hLlen x hLget
    have hmlen : ((listSwap l n (l.indexOf x)).take n).length = n := by
      rw [List.length_take, hLlen]; omega
    have hLperm : List.Perm (listSwap l n (l.indexOf x)) l := listSwap_perm l n (l.indexOf x)
    have hLnd : (listSwap l n (l.indexOf x)).Nodup := hLperm.nodup_iff.mpr hnd
    have hmnd : ((listSwap l n (l.indexOf x)).take n).Nodup :=
      List.Nodup.sublist (List.take_sublist n _) hLnd
    have hl''split : l' = l'.take n ++ [x] := take_append_last l' n hl' x hx
    have hl''len : (l'.take n).length = n := by
      rw [List.length_take, hl']; omega
    have hperm2 : List.Perm (l'.take n) ((listSwap l n (l.indexOf x)).take n) := by
      have hA : List.Perm (l'.take n ++ [x])
          ((listSwap l n (l.indexOf x)).take n ++ [x]) := by
        rw [← hl''split, ← hLsplit]
        exact hp.trans hLperm.symm
      exact ((List.perm_append_singleton x (l'.take n)).symm.trans
        (hA.trans (List.perm_append_singleton x _))).cons_inv
    obtain ⟨d₀, hd₀, huniq₀⟩ := ih ((listSwap l n (l.indexOf x)).take n) (l'.take n)
      hmlen hmnd hperm2
    refine ⟨fun c => Fin.lastCases (motive := fun c => Fin (c.1 + 1))
      ⟨l.indexOf x, by simp only [Fin.val_last]; omega⟩ d₀ c, ?_, ?_⟩
    · show fyVec _ l = l'
      simp only [fyVec, Fin.lastCases_last]
      have hfun : (fun c0 : Fin n => Fin.lastCases (motive := fun c => Fin (c.1 + 1))
          ⟨l.indexOf x, by simp only [Fin.val_last]; omega⟩ d₀ c0.castSucc) = d₀ := by
        funext c0
        exact Fin.lastCases_castSucc c0
      rw [hfun, hLsplit, fyVec_append n d₀ _ [x] (le_of_eq hmlen.symm), hd₀, ← hl''split]
    · intro d' hd'
      have hjle : (d' (Fin.last n)).1 ≤ n := Nat.lt_succ_iff.mp (d' (Fin.last n)).2
      have hjlt : (d' (Fin.last n)).1 < l.length := by omega
      have hLjlen : (listSwap l n (d' (Fin.last n)).1).length = n + 1 := by
        rw [listSwap_length]; exact hl
      obtain ⟨z, hz⟩ : ∃ z, l[(d' (Fin.last n)).1]? = some z :=
        ⟨l[(d' (Fin.last n)).1], List.getElem?_eq_getElem hjlt⟩
      have hLjget : (listSwap l n (d' (Fin.last n)).1)[n]? = some z := by
        rw [listSwap_getElem_fst l n (d' (Fin.last n)).1 hn hjlt]
        obtain ⟨h1, h2⟩ := List.getElem?_eq_some.mp hz
        exact congrArg some h2
      have hLjsplit : listSwap l n (d' (Fin.last n)).1
          = (listSwap l n (d' (Fin.last n)).1).take n ++ [z] :=
        take_append_last _ n hLjlen z hLjget
      have hmjlen : ((listSwap l n (d' (Fin.last n)).1).take n).length = n := by
        rw [List.length_take, hLjlen]; omega
      have h1 : fyVec d' l = fyVec (fun c0 : Fin n => d' c0.castSucc)
          (listSwap l n (d' (Fin.last n)).1) := rfl
      have hd'eq : l'.take n ++ [x] = fyVec (fun c0 : Fin n => d' c0.castSucc)
          ((listSwap l n (d' (Fin.last n)).1).take n) ++ [z] := by
        conv_lhs => rw [← hl''split, ← hd', h1, hLjsplit]
        rw [fyVec_append n _ _ [z] (le_of_eq hmjlen.symm)]
      have hlen_eq : (l'.take n).length = (fyVec (fun c0 : Fin n => d' c0.castSucc)
          ((listSwap l n (d' (Fin.last n)).1).take n)).length := by
        rw [(fyVec_perm _ _).length_eq, hmjlen, hl''len]
      obtain ⟨hfirst, hsecond⟩ := List.append_inj hd'eq hlen_eq
      have hzx : x = z := by
        simpa using hsecond
      have hji : (d' (Fin.last n)).1 = l.indexOf x := by
        obtain ⟨hb1, he1⟩ := List.getElem?_eq_some.mp hz
        obtain ⟨hb2, he2⟩ := List.getElem?_eq_some.mp hig
        have hgeq : l[(d' (Fin.last n)).1] = l[l.indexOf x] := by rw [he1, he2, hzx]
        exact (@List.Nodup.getElem_inj_iff α l hnd (d' (Fin.last n)).1 hb1
          (l.indexOf x) hb2).mp hgeq
      have hrest : (fun c0 : Fin n => d' c0.castSucc) = d₀ := by
        apply huniq₀
        show fyVec _ (List.take n (listSwap l n (List.indexOf x l))) = List.take n l'
        rw [← hji]
        exact hfirst.symm
      funext c
      refine Fin.lastCases ?_ ?_ c
      · rw [Fin.lastCases_last]
        exact Fin.ext hji
      · intro c0
        rw [Fin.lastCases_castSucc]
        exact congrFun hrest c0

theorem drawVec_card (n : Nat) : Fintype.card (DrawVec n) = Nat.factorial n := by
  rw [Fintype.card_pi]
  simp only [Fintype.card_fin]
  rw [Fin.prod_univ_eq_prod_range (fun i => i + 1) n]
  exact Finset.prod_range_add_one_eq_factorial n

theorem shuffleComboGo_eq_spec {α β : Type _} (rand : Nat → Nat)
    (hr : ∀ c, rand (c + 1) ≤ c) :
    ∀ (m : Nat) (a : List α) (b : List β),
      shuffleComboGo rand (m + 1) (a, b) = specPairedFY (fun c => rand (c + 1)) m (a, b) := by
  intro m
  induction m with
  | zero =>
    intro a b
    have h0 : rand 1 = 0 := Nat.le_zero.mp (hr 0)
    simp only [shuffleComboGo, specPairedFY, h0, listSwap_self]
  | succ m ih =>
    intro a b
    show shuffleComboGo rand (m + 1)
        (listSwap a (m + 1) (rand (m + 2)), listSwap b (m + 1) (rand (m + 2)))
      = specPairedFY (fun c => rand (c + 1)) m
        (listSwap a (m + 1) (rand (m + 2)), listSwap b (m + 1) (rand (m + 2)))
    exact ih _ _

theorem shuffleCombo_eq_spec {α β : Type _} (rand : Nat → Nat)
    (hr : ∀ c, rand (c + 1) ≤ c) (a : List α) (b : List β) :
    shuffleCombo rand a b = specFisherYates (fun c => rand (c + 1)) a b := by
  unfold shuffleCombo specFisherYates
  cases h : a.length with
  | zero => rfl
  | succ m => rw [Nat.add_sub_cancel]; exact shuffleComboGo_eq_spec rand hr m a b

theorem shuffleCombo_fst_eq_fyVec {α β : Type _} {n : Nat} (d : DrawVec n)
    (a : List α) (b : List β) (ha : a.length = n) :
    (shuffleCombo (vecToRand d) a b).1 = fyVec d a := by
  unfold shuffleCombo
  rw [shuffleComboGo_eq, ha, ← fyVec_eq_shuffleOne]

/-- Claim C4: `shuffleCombo` implements the paired Fisher-Yates shuffle.
First conjunct: for draws in range (`(Math.random()*counter)|0 < counter`),
`shuffleCombo` computes exactly the spec's algorithm (counter from `N-1` down
to `1`, index drawn in `[0, counter]`, simultaneous swap) — the source's extra
iteration at counter 0 is a self-swap.  Remaining conjuncts: the draw space
has exactly `n!` elements, every draw vector yields a permutation of the
input, and every permutation of a duplicate-free input is produced by exactly
one draw vector — under a uniform random source the output ordering is
therefore uniform over all `n!` permutations. -/
theorem shuffleCombo_paired_fisherYates_uniform {α β : Type _} [DecidableEq α] (n : Nat)
    (rand : Nat → Nat) (a : List α) (b : List β) (target : List α)
    (hr : ∀ c, rand (c + 1) ≤ c) (ha : a.length = n)
    (hnd : a.Nodup) (ht : List.Perm target a) :
    shuffleCombo rand a b = specFisherYates (fun c => rand (c + 1)) a b
    ∧ Fintype.card (DrawVec n) = Nat.factorial n
    ∧ (∀ d : DrawVec n, List.Perm (shuffleCombo (vecToRand d) a b).1 a)
    ∧ (∃! d : DrawVec n, (shuffleCombo (vecToRand d) a b).1 = target) := by
  refine ⟨shuffleCombo_eq_spec rand hr a b, drawVec_card n, ?_, ?_⟩
  · intro d
    rw [shuffleCombo_fst_eq_fyVec d a b ha]
    exact fyVec_perm d a
  · obtain ⟨d₀, hd₀, huniq⟩ := fyVec_existsUnique n a target ha hnd ht
    refine ⟨d₀, ?_, ?_⟩
    · show (shuffleCombo (vecToRand d₀) a b).1 = target
      rw [shuffleCombo_fst_eq_fyVec d₀ a b ha]
      exact hd₀
    · intro d' hd'
      apply huniq
      show fyVec d' a = target
      rw [← shuffleCombo_fst_eq_fyVec d' a b ha]
      exact hd'

theorem shuffleCombo_paired_fisherYates_uniform_witness :
    shuffleCombo (fun _ => 0) [1, 2] [3, 4]
        = specFisherYates (fun c => (fun _ : Nat => 0) (c + 1)) [1, 2] [3, 4]
    ∧ Fintype.card (DrawVec 2) = Nat.factorial 2
    ∧ (∀ d : DrawVec 2, List.Perm (shuffleCombo (vecToRand d) [1, 2] [3, 4]).1 [1, 2])
    ∧ (∃! d : DrawVec 2, (shuffleCombo (vecToRand d) [1, 2] [3, 4]).1 = [2, 1]) :=
  shuffleCombo_paired_fisherYates_uniform 2 (fun _ => 0) [1, 2] [3, 4] [2, 1] (fun c => Nat.zero_le c) rfl
    (by decide) (by decide)

/-- Claim C10: the observer influences only which events are emitted.  With
the same environment (same folder contents, random source, backbone and
optimizer), a run with an attached observer and a run with `socket = null`
compute identical results (dataset, features, training history), and the
observer-less run emits no events. -/
theorem learnTransferModel_observer_noninterference (env : TrainEnv) :
    (learnTransferModel env true).1 = (learnTransferModel env false).1
    ∧ (learnTransferModel env false).2 = [] := by
  unfold learnTransferModel
  rcases hf : folderToTensors env.rand env.enum with ⟨o, ex⟩
  cases o with
  | rejectedEmpty => simp
  | resolved X Y dirs =>
    cases hm : env.loadModel with
    | error e => simp [hm]
    | ok backbone => simp [hm, fitEvents]

/-- Claim C5: in any run of `learnTransferModel` with an attached observer
that completes successfully, the emitted trace is exactly
`log "loading images"`, `log "loading model"`, `log "creating features"`,
the feature-shape log, then the per-epoch progress events for epochs
`0..99` in increasing order (exactly 100 of them, `epochCount = 100`),
then `log "learned"` followed by exactly one completion event. -/
theorem learnTransferModel_event_order (env : TrainEnv) (r : RunResult)
    (h : (learnTransferModel env true).1 = some r) :
    (learnTransferModel env true).2
      = [Event.log "loading images", Event.log "loading model",
         Event.log "creating features",
         Event.log ("Features stack " ++ shapeString r.features)]
        ++ (List.range epochCount).map Event.updateProgress
        ++ [Event.log "learned", Event.learnCompleted]
    ∧ (learnTransferModel env true).2.filterMap progressEpoch = List.range 100
    ∧ (learnTransferModel env true).2.count Event.learnCompleted = 1
    ∧ epochCount = 100 := by
  unfold learnTransferModel at h ⊢
  rcases hf : folderToTensors env.rand env.enum with ⟨o, ex⟩
  rw [hf] at h
  cases o with
  | rejectedEmpty => simp at h
  | resolved X Y dirs =>
    cases hm : env.loadModel with
    | error e => rw [hm] at h; simp at h
    | ok backbone =>
      rw [hm] at h
      simp only [Option.some_inj] at h
      subst h
      refine ⟨by simp [fitEvents, epochCount], ?_, ?_, rfl⟩
      · simp [fitEvents, List.filterMap_append, List.filterMap_map,
          progressEpoch, epochCount]
        rfl
      · simp [fitEvents, List.count_append, epochCount]
        rw [List.count_eq_zero]
        simp [progressEpoch]

theorem loadStep_ok {st st1 : LoadState} {f : ImageFile} (h : loadStep st f = .ok st1) :
    ∃ t, fileToTensor f = .ok t
      ∧ st1.XS = st.XS ++ [t]
      ∧ st1.YS = st.YS
          ++ [(if f.label ∈ st.dirs then st.dirs else st.dirs ++ [f.label]).indexOf f.label]
      ∧ st1.dirs = (if f.label ∈ st.dirs then st.dirs else st.dirs ++ [f.label]) := by
  unfold loadStep at h
  cases hft : fileToTensor f with
  | error e => rw [hft] at h; cases h
  | ok t =>
    rw [hft] at h
    cases h
    exact ⟨t, rfl, rfl, rfl, rfl⟩

theorem processFiles_ok_characterization :
    ∀ (files : List ImageFile) (st st' : LoadState),
      processFiles st files = .ok st' →
      st'.dirs = foldDirs st.dirs (files.map ImageFile.label)
      ∧ st'.YS = st.YS ++ labelIdxs st.dirs (files.map ImageFile.label)
      ∧ st'.XS.length = st.XS.length + files.length := by
  intro files
  induction files with
  | nil =>
    intro st st' h
    cases h
    simp [foldDirs, labelIdxs]
  | cons f fs ih =>
    intro st st' h
    simp only [processFiles] at h
    cases hls : loadStep st f with
    | error e => rw [hls] at h; cases h
    | ok st1 =>
      rw [hls] at h
      obtain ⟨t, hft, hXS, hYS, hdirs⟩ := loadStep_ok hls
      obtain ⟨ih1, ih2, ih3⟩ := ih st1 st' h
      refine ⟨?_, ?_, ?_⟩
      · rw [ih1, hdirs]
        rfl
      · rw [ih2, hYS, hdirs]
        simp only [List.map_cons, labelIdxs, List.append_assoc, List.singleton_append]
      · rw [ih3, hXS]
        simp [List.length_append]
        omega

theorem labelIdxs_length : ∀ (ls : List String) (dirs : List String),
    (labelIdxs dirs ls).length = ls.length := by
  intro ls
  induction ls with
  | nil => intro dirs; rfl
  | cons d ls ih => intro dirs; simp only [labelIdxs, List.length_cons, ih]

theorem firstsNotIn_congr :
    ∀ (ls : List String) (s1 s2 : List String), (∀ x, x ∈ s1 ↔ x ∈ s2) →
      firstsNotIn s1 ls = firstsNotIn s2 ls := by
  intro ls
  induction ls with
  | nil => intro s1 s2 _; rfl
  | cons d ls ih =>
    intro s1 s2 hmem
    simp only [firstsNotIn]
    by_cases hd : d ∈ s1
    · rw [if_pos hd, if_pos ((hmem d).mp hd)]
      exact ih s1 s2 hmem
    · rw [if_neg hd, if_neg (fun hc => hd ((hmem d).mpr hc))]
      refine congrArg (d :: ·) (ih (d :: s1) (d :: s2) (fun x => ?_))
      simp only [List.mem_cons, hmem x]

theorem foldDirs_eq_append : ∀ (ls : List String) (dirs : List String),
    foldDirs dirs ls = dirs ++ firstsNotIn dirs ls := by
  intro ls
  induction ls with
  | nil => intro dirs; simp [foldDirs, firstsNotIn]
  | cons d ls ih =>
    intro dirs
    simp only [foldDirs, firstsNotIn]
    by_cases hd : d ∈ dirs
    · rw [if_pos hd, if_pos hd]
      exact ih dirs
    · rw [if_neg hd, if_neg hd, ih (dirs ++ [d]),
        firstsNotIn_congr ls (dirs ++ [d]) (d :: dirs) (fun x => by simp [or_comm]),
        List.append_assoc]
      rfl

theorem mem_firstsNotIn : ∀ (ls seen : List String) (x : String),
    x ∈ firstsNotIn seen ls ↔ x ∉ seen ∧ x ∈ ls := by
  intro ls
  induction ls with
  | nil => intro seen x; simp [firstsNotIn]
  | cons d ls ih =>
    intro seen x
    simp only [firstsNotIn]
    by_cases hd : d ∈ seen
    · rw [if_pos hd, ih]
      simp only [List.mem_cons]
      constructor
      · rintro ⟨h1, h2⟩
        exact ⟨h1, Or.inr h2⟩
      · rintro ⟨h1, h2 | h3⟩
        · exact absurd (h2 ▸ hd) h1
        · exact ⟨h1, h3⟩
    · rw [if_neg hd]
      simp only [List.mem_cons, ih]
      constructor
      · rintro (rfl | ⟨h1, h2⟩)
        · exact ⟨hd, Or.inl rfl⟩
        · exact ⟨fun hc => h1 (Or.inr hc), Or.inr h2⟩
      · rintro ⟨h1, rfl | h2⟩
        · exact Or.inl rfl
        · by_cases hxd : x = d
          · exact Or.inl hxd
          · exact Or.inr ⟨by simp [hxd, h1], h2⟩

theorem nodup_firstsNotIn : ∀ (ls seen : List String), (firstsNotIn seen ls).Nodup := by
  intro ls
  induction ls with
  | nil => intro seen; simp [firstsNotIn]
  | cons d ls ih =>
    intro seen
    simp only [firstsNotIn]
    by_cases hd : d ∈ seen
    · rw [if_pos hd]; exact ih seen
    · rw [if_neg hd]
      refine List.nodup_cons.mpr ⟨fun hc => ?_, ih (d :: seen)⟩
      exact ((mem_firstsNotIn ls (d :: seen) d).mp hc).1 (List.mem_cons_self d seen)

theorem foldDirs_indexOf_of_mem (ls dirs : List String) (d : String) (hd : d ∈ dirs) :
    (foldDirs dirs ls).indexOf d = dirs.indexOf d := by
  rw [foldDirs_eq_append]
  exact List.indexOf_append_of_mem hd

theorem labelIdxs_eq_map : ∀ (ls : List String) (dirs : List String),
    labelIdxs dirs ls = ls.map (fun d => (foldDirs dirs ls).indexOf d) := by
  intro ls
  induction ls with
  | nil => intro dirs; rfl
  | cons d ls ih =>
    intro dirs
    simp only [labelIdxs, List.map_cons]
    have hstep : foldDirs dirs (d :: ls)
        = foldDirs (if d ∈ dirs then dirs else dirs ++ [d]) ls := rfl
    have hmem : d ∈ (if d ∈ dirs then dirs else dirs ++ [d]) := by
      by_cases hd : d ∈ dirs
      · rw [if_pos hd]; exact hd
      · rw [if_neg hd]; simp
    congr 1
    · rw [hstep, foldDirs_indexOf_of_mem ls _ d hmem]
    · rw [ih]
      rfl

theorem firstsNotIn_indexOf_lt :
    ∀ (ls seen : List String) (x y : String),
      x ∈ firstsNotIn seen ls → y ∈ firstsNotIn seen ls →
      (firstsNotIn seen ls).indexOf x < (firstsNotIn seen ls).indexOf y →
      ls.indexOf x < ls.indexOf y := by
  intro ls
  induction ls with
  | nil => intro seen x y hx _ _; simp [firstsNotIn] at hx
  | cons d ls ih =>
    intro seen x y hx hy hlt
    by_cases hd : d ∈ seen
    · simp only [firstsNotIn, if_pos hd] at hx hy hlt
      have hxd : x ≠ d := fun hc =>
        ((mem_firstsNotIn ls seen x).mp hx).1 (hc ▸ hd)
      have hyd : y ≠ d := fun hc =>
        ((mem_firstsNotIn ls seen y).mp hy).1 (hc ▸ hd)
      rw [List.indexOf_cons_ne ls (Ne.symm hxd), List.indexOf_cons_ne ls (Ne.symm hyd)]
      exact Nat.succ_lt_succ (ih seen x y hx hy hlt)
    · simp only [firstsNotIn, if_neg hd] at hx hy hlt
      by_cases hxd : x = d
      · subst hxd
        have hyd : y ≠ x := by
          intro hc
          subst hc
          exact Nat.lt_irrefl _ hlt
        rw [List.indexOf_cons_self, List.indexOf_cons_ne ls (Ne.symm hyd)]
        exact Nat.succ_pos _
      · have hx' : x ∈ firstsNotIn (d :: seen) ls := by
          rcases List.mem_cons.mp hx with hc | hc
          · exact absurd hc hxd
          · exact hc
        have hyd : y ≠ d := by
          intro hc
          subst hc
          rw [List.indexOf_cons_self] at hlt
          exact Nat.not_lt_zero _ hlt
        have hy' : y ∈ firstsNotIn (d :: seen) ls := by
          rcases List.mem_cons.mp hy with hc | hc
          · exact absurd hc hyd
          · exact hc
        rw [List.indexOf_cons_ne _ (Ne.symm hxd), List.indexOf_cons_ne _ (Ne.symm hyd)] at hlt
        rw [List.indexOf_cons_ne ls (Ne.symm hxd), List.indexOf_cons_ne ls (Ne.symm hyd)]
        exact Nat.succ_lt_succ (ih (d :: seen) x y hx' hy' (Nat.lt_of_succ_lt_succ hlt))

/-- Claim C6: label indices are assigned by first-seen order over the file
enumeration order.  The accumulated `dirs` lists the distinct label names
without duplication, ordered by the position of their first occurrence in the
enumeration (strictly monotone in first-occurrence position), and every
sample's numeric label is the index of its label name in `dirs`. -/
theorem processFiles_label_first_seen (files : List ImageFile) (st : LoadState)
    (h : processFiles ⟨[], [], []⟩ files = .ok st) :
    st.dirs.Nodup
    ∧ (∀ x, x ∈ st.dirs ↔ x ∈ files.map ImageFile.label)
    ∧ (∀ x y, x ∈ st.dirs → y ∈ st.dirs →
        (st.dirs.indexOf x < st.dirs.indexOf y
          ↔ (files.map ImageFile.label).indexOf x
              < (files.map ImageFile.label).indexOf y))
    ∧ st.YS = (files.map ImageFile.label).map (fun d => st.dirs.indexOf d) := by
  obtain ⟨hdirs, hYS, _⟩ := processFiles_ok_characterization files ⟨[], [], []⟩ st h
  have hdirs' : st.dirs = firstsNotIn [] (files.map ImageFile.label) := by
    rw [hdirs, foldDirs_eq_append]
    rfl
  have hmem : ∀ x, x ∈ st.dirs ↔ x ∈ files.map ImageFile.label := by
    intro x
    rw [hdirs', mem_firstsNotIn]
    simp
  have hmono : ∀ x y, x ∈ st.dirs → y ∈ st.dirs →
      st.dirs.indexOf x < st.dirs.indexOf y →
      (files.map ImageFile.label).indexOf x < (files.map ImageFile.label).indexOf y := by
    intro x y hx hy hlt
    rw [hdirs'] at hx hy hlt
    exact firstsNotIn_indexOf_lt (files.map ImageFile.label) [] x y hx hy hlt
  refine ⟨hdirs' ▸ nodup_firstsNotIn (files.map ImageFile.label) [], hmem, ?_, ?_⟩
  · intro x y hx hy
    refine ⟨hmono x y hx hy, fun hlt => ?_⟩
    rcases Nat.lt_trichotomy (st.dirs.indexOf x) (st.dirs.indexOf y) with hc | hc | hc
    · exact hc
    · exfalso
      have hxy : x = y := (List.indexOf_inj hx hy).mp hc
      subst hxy
      exact Nat.lt_irrefl _ hlt
    · exact absurd (hmono y x hy hx hc) (Nat.lt_asymm hlt)
  · rw [hYS, labelIdxs_eq_map, ← hdirs]
    rfl

/-- Claim C8: every enumerated file appends exactly one element to `XS` and
one to `YS`, so at the point where `shuffleCombo` is invoked the two arrays
have identical length and the `console.assert` condition always holds. -/
theorem processFiles_equal_lengths (files : List ImageFile) (st : LoadState)
    (h : processFiles ⟨[], [], []⟩ files = .ok st) :
    st.XS.length = files.length ∧ st.YS.length = files.length
    ∧ shuffleComboAssertion st.XS st.YS = true := by
  obtain ⟨_, hYS, hXS⟩ := processFiles_ok_characterization files ⟨[], [], []⟩ st h
  have h1 : st.XS.length = files.length := by simpa using hXS
  have h2 : st.YS.length = files.length := by
    rw [hYS]
    simp [labelIdxs_length]
  refine ⟨h1, h2, ?_⟩
  simp [shuffleComboAssertion, h1, h2]

theorem processFiles_stops_at_error :
    ∀ (pre : List ImageFile) (st : LoadState) (bad : ImageFile)
      (rest : List ImageFile) (e : String),
      bad.decoded = Except.error e → (∀ f ∈ pre, ∃ px, f.decoded = Except.ok px) →
      processFiles st (pre ++ bad :: rest) = Except.error e := by
  intro pre
  induction pre with
  | nil =>
    intro st bad rest e hbad _
    simp only [List.nil_append, processFiles]
    have hls : loadStep st bad = .error e := by
      unfold loadStep fileToTensor
      rw [hbad]
    rw [hls]
  | cons f pre ih =>
    intro st bad rest e hbad hpre
    obtain ⟨px, hpx⟩ := hpre f (List.mem_cons_self f pre)
    simp only [List.cons_append, processFiles]
    cases hls : loadStep st f with
    | error e2 =>
      exfalso
      unfold loadStep fileToTensor at hls
      rw [hpx] at hls
      cases hls
    | ok st1 =>
      exact ih st1 bad rest e hbad (fun g hg => hpre g (List.mem_cons_of_mem f hg))

/-- Claim C9: if one file fails to decode, the whole load fails: the
`forEach` iteration stops at the failing file (the result does not depend on
the files after it), and `folderToTensors` never resolves — no partial
dataset is produced. -/
theorem decode_failure_aborts_run (pre : List ImageFile) (bad : ImageFile) (rest rest' : List ImageFile)
    (e : String) (hbad : bad.decoded = Except.error e)
    (hpre : ∀ f ∈ pre, ∃ px, f.decoded = Except.ok px) :
    processFiles ⟨[], [], []⟩ (pre ++ bad :: rest) = Except.error e
    ∧ processFiles ⟨[], [], []⟩ (pre ++ bad :: rest)
        = processFiles ⟨[], [], []⟩ (pre ++ bad :: rest')
    ∧ ∀ rand, folderToTensors rand (Except.ok (pre ++ bad :: rest))
        = (FolderOutcome.rejectedEmpty, true) := by
  have h1 := processFiles_stops_at_error pre ⟨[], [], []⟩ bad rest e hbad hpre
  have h2 := processFiles_stops_at_error pre ⟨[], [], []⟩ bad rest' e hbad hpre
  refine ⟨h1, h1.trans h2.symm, fun rand => ?_⟩
  simp only [folderToTensors, h1]

theorem oneHotRow_length (y k : Nat) : (oneHotRow y k).length = k := by
  simp [oneHotRow]

theorem oneHotRow_succ_sum (y k : Nat) :
    (oneHotRow y (k + 1)).sum = (oneHotRow y k).sum + (if k = y then 1 else 0) := by
  simp [oneHotRow, List.range_succ]

theorem oneHotRow_sum_zero : ∀ (k y : Nat), k ≤ y → (oneHotRow y k).sum = 0 := by
  intro k
  induction k with
  | zero => intro y _; rfl
  | succ k ih =>
    intro y hy
    rw [oneHotRow_succ_sum, ih y (by omega), if_neg (by omega)]
    norm_num

theorem oneHotRow_sum_one : ∀ (k y : Nat), y < k → (oneHotRow y k).sum = 1 := by
  intro k
  induction k with
  | zero => intro y hy; omega
  | succ k ih =>
    intro y hy
    rw [oneHotRow_succ_sum]
    by_cases hk : y < k
    · rw [ih y hk, if_neg (by omega)]
      norm_num
    · have hyk : y = k := by omega
      subst hyk
      rw [oneHotRow_sum_zero y y (le_refl y), if_pos rfl]
      norm_num

theorem oneHotRow_getElem (y k j : Nat) (hj : j < k) :
    (oneHotRow y k)[j]? = some (if j = y then 1 else 0) := by
  simp [oneHotRow, List.getElem?_map, List.getElem?_range hj]

/-- Claim C7: the one-hot label tensor built by `folderToTensors` has one row
per sample (`N` rows), each row of width `dirs.length` (= numClasses) summing
to exactly 1, and row `i` is the one-hot vector whose single 1 sits at that
sample's assigned label index.  The first conjunct needs at least two label
classes, since `tf.oneHot` validates `depth >= 2` before building any array;
whenever the program does build the array, the stated shape holds. -/
theorem folderToTensors_oneHot_rows (rand : Nat → Nat) (files : List ImageFile) (st : LoadState)
    (h : processFiles ⟨[], [], []⟩ files = .ok st) (hk : 2 ≤ st.dirs.length) :
    (folderToTensors rand (Except.ok files)).1
      = FolderOutcome.resolved
          ((shuffleCombo rand st.XS st.YS).1.map (fun row => row.map (fun v => v / 255)))
          (oneHotRows (shuffleCombo rand st.XS st.YS).2 st.dirs.length)
          st.dirs
    ∧ (oneHotRows (shuffleCombo rand st.XS st.YS).2 st.dirs.length).length = files.length
    ∧ (∀ row ∈ oneHotRows (shuffleCombo rand st.XS st.YS).2 st.dirs.length,
        row.length = st.dirs.length ∧ row.sum = 1)
    ∧ ∀ (i y : Nat), (shuffleCombo rand st.XS st.YS).2[i]? = some y →
        (oneHotRows (shuffleCombo rand st.XS st.YS).2 st.dirs.length)[i]?
            = some (oneHotRow y st.dirs.length)
        ∧ ∀ j, j < st.dirs.length →
            (oneHotRow y st.dirs.length)[j]? = some (if j = y then 1 else 0) := by
  obtain ⟨hdirs, hYS, hXS⟩ := processFiles_ok_characterization files ⟨[], [], []⟩ st h
  have hbound : ∀ y ∈ st.YS, y < st.dirs.length := by
    intro y hy
    rw [hYS, List.nil_append, labelIdxs_eq_map] at hy
    obtain ⟨d, hd, hdy⟩ := List.mem_map.mp hy
    have hdm : d ∈ st.dirs := by
      rw [hdirs, foldDirs_eq_append, List.nil_append, mem_firstsNotIn]
      simpa using hd
    rw [← hdy, ← hdirs]
    exact List.indexOf_lt_length.mpr hdm
  have hys2 : (shuffleCombo rand st.XS st.YS).2 = shuffleOne rand st.XS.length st.YS := by
    unfold shuffleCombo
    rw [shuffleComboGo_eq]
  have hperm : List.Perm (shuffleCombo rand st.XS st.YS).2 st.YS := by
    rw [hys2]
    exact shuffleOne_perm rand st.XS.length st.YS
  have hboundS : ∀ y ∈ (shuffleCombo rand st.XS st.YS).2, y < st.dirs.length :=
    fun y hy => hbound y (hperm.mem_iff.mp hy)
  have hlen : (shuffleCombo rand st.XS st.YS).2.length = files.length := by
    rw [hperm.length_eq, hYS]
    simp [labelIdxs_length]
  refine ⟨?_, ?_, ?_, ?_⟩
  · have hfne : files ≠ [] := by
      intro hfe
      subst hfe
      rw [show st.dirs = [] from by simpa [foldDirs] using hdirs] at hk
      simp at hk
    have hxs1 : (shuffleCombo rand st.XS st.YS).1
        = shuffleOne rand st.XS.length st.XS := by
      unfold shuffleCombo
      rw [shuffleComboGo_eq]
    have hxlen : (shuffleCombo rand st.XS st.YS).1.length = files.length := by
      rw [hxs1, shuffleOne_length]
      simpa using hXS
    have hne : ¬ ((shuffleCombo rand st.XS st.YS).1.isEmpty = true) := by
      simp only [List.isEmpty_iff]
      intro hc
      rw [hc] at hxlen
      exact hfne (List.length_eq_zero.mp hxlen.symm)
    have hstack : stack (shuffleCombo rand st.XS st.YS).1
        = .ok (shuffleCombo rand st.XS st.YS).1 := by
      unfold stack
      rw [if_neg hne]
    have h1hot : oneHot (shuffleCombo rand st.XS st.YS).2 st.dirs.length
        = .ok (oneHotRows (shuffleCombo rand st.XS st.YS).2 st.dirs.length) := by
      unfold oneHot
      rw [if_neg (by omega)]
    simp only [folderToTensors, h, hstack, h1hot]
  · simp [oneHotRows, hlen]
  · intro row hrow
    obtain ⟨y, hy, hyr⟩ := List.mem_map.mp hrow
    rw [← hyr]
    exact ⟨oneHotRow_length y _, oneHotRow_sum_one _ y (hboundS y hy)⟩
  · intro i y hiy
    refine ⟨?_, fun j hj => oneHotRow_getElem y _ j hj⟩
    simp [oneHotRows, List.getElem?_map, hiy]


theorem processFiles_example :
    processFiles ⟨[], [], []⟩ [fileA1, fileB2, fileA3] = .ok stExample := by
  norm_num [processFiles, loadStep, fileToTensor, fileA1, fileB2, fileA3, stExample,
    String.reduceEq, String.reduceBEq, List.indexOf, List.findIdx, List.findIdx.go]
  simp [String.reduceEq, String.reduceBEq, List.indexOf, List.findIdx, List.findIdx.go]


theorem learn_envOk_result : (learnTransferModel envOk true).1 = some runOk := by
  norm_num [learnTransferModel, folderToTensors, processFiles, loadStep, fileToTensor,
    envOk, fileA1, fileB2, fileA3, runOk, shuffleCombo, shuffleComboGo, listSwap,
    stack, oneHot, oneHotRows, oneHotRow, String.reduceEq, String.reduceBEq,
    List.indexOf, List.findIdx, List.findIdx.go, List.range_succ]
  simp [String.reduceEq, String.reduceBEq, List.indexOf, List.findIdx, List.findIdx.go,
    List.range_succ]
  norm_num

theorem shuffleCombo_pairing_invariant_witness :
    ([1, 2] : List Nat).length = ([3, 4] : List Nat).length
    ∧ (List.Perm ((shuffleCombo (fun _ => 0) [1, 2] [3, 4]).1.zip
          (shuffleCombo (fun _ => 0) [1, 2] [3, 4]).2) (([1, 2] : List Nat).zip [3, 4])
       ∧ ∀ i (h1 : i < (shuffleCombo (fun _ => 0) [1, 2] [3, 4]).1.length)
           (h2 : i < (shuffleCombo (fun _ => 0) [1, 2] [3, 4]).2.length),
           ((shuffleCombo (fun _ => 0) [1, 2] [3, 4]).1.get ⟨i, h1⟩,
            (shuffleCombo (fun _ => 0) [1, 2] [3, 4]).2.get ⟨i, h2⟩)
             ∈ ([1, 2] : List Nat).zip [3, 4]) :=
  ⟨rfl, shuffleCombo_pairing_invariant (fun _ => 0) [1, 2] [3, 4] rfl⟩

theorem learnTransferModel_event_order_witness :
    (learnTransferModel envOk true).1 = some runOk
    ∧ (learnTransferModel envOk true).2.filterMap progressEpoch = List.range 100 :=
  ⟨learn_envOk_result, (learnTransferModel_event_order envOk runOk learn_envOk_result).2.1⟩

theorem processFiles_label_first_seen_witness :
    processFiles ⟨[], [], []⟩ [fileA1, fileB2, fileA3] = .ok stExample
    ∧ stExample.YS = (([fileA1, fileB2, fileA3] : List ImageFile).map ImageFile.label).map
        (fun d => stExample.dirs.indexOf d) :=
  ⟨processFiles_example,
    (processFiles_label_first_seen [fileA1, fileB2, fileA3] stExample processFiles_example).2.2.2⟩

theorem folderToTensors_oneHot_rows_witness :
    processFiles ⟨[], [], []⟩ [fileA1, fileB2, fileA3] = .ok stExample
    ∧ 2 ≤ stExample.dirs.length
    ∧ (oneHotRows (shuffleCombo (fun _ => 0) stExample.XS stExample.YS).2
        stExample.dirs.length).length = ([fileA1, fileB2, fileA3] : List ImageFile).length :=
  ⟨processFiles_example, by norm_num [stExample],
    (folderToTensors_oneHot_rows (fun _ => 0) [fileA1, fileB2, fileA3] stExample
      processFiles_example (by norm_num [stExample])).2.1⟩

theorem processFiles_equal_lengths_witness :
    processFiles ⟨[], [], []⟩ [fileA1, fileB2, fileA3] = .ok stExample
    ∧ shuffleComboAssertion stExample.XS stExample.YS = true :=
  ⟨processFiles_example,
    (processFiles_equal_lengths [fileA1, fileB2, fileA3] stExample processFiles_example).2.2⟩

theorem decode_failure_aborts_run_witness :
    badFile.decoded = Except.error "DecodeError: unsupported image format"
    ∧ processFiles ⟨[], [], []⟩ ([fileA1] ++ badFile :: [fileB2])
        = Except.error "DecodeError: unsupported image format" :=
  ⟨rfl, (decode_failure_aborts_run [fileA1] badFile [fileB2] [] "DecodeError: unsupported image format" rfl
    (fun f hf => by
      simp only [List.mem_singleton] at hf
      subst hf
      exact ⟨[0], rfl⟩)).1⟩

/-- Claim C1 (code bug): the code normalizes twice, not once.  `fileToTensor`
divides every pixel by 255 (line 16) and `folderToTensors` divides the stacked
tensor by 255 again (`XNORM = X.div(255)`, line 82).  In a two-label folder
(so that `tf.oneHot` accepts `depth = 2` and the run really resolves) holding
a maximally bright pixel (255) and a dark one (0), the run resolves with the
bright pixel at `1/255` — inside the band `[0, 1/255]` that the claim says is
unreachable.  The final values do stay inside `[0, 1]`. -/
theorem folderToTensors_double_normalization :
    folderToTensors (fun _ => 0) (.ok [brightFile, darkFile]) =
      (FolderOutcome.resolved [[0], [1 / 255]] [[0, 1], [1, 0]] ["cat", "dog"], false)
    ∧ (0 : ℚ) ≤ 1 / 255 ∧ (1 : ℚ) / 255 ≤ 1 / 255 ∧ (1 : ℚ) / 255 ≤ 1 := by
  refine ⟨?_, by norm_num, le_refl _, by norm_num⟩
  norm_num [folderToTensors, processFiles, loadStep, fileToTensor, brightFile, darkFile,
    shuffleCombo, shuffleComboGo, listSwap, stack, oneHot, oneHotRows, oneHotRow,
    String.reduceEq, String.reduceBEq, List.indexOf, List.findIdx, List.findIdx.go,
    List.range_succ]
  simp [String.reduceEq, String.reduceBEq, List.indexOf, List.findIdx, List.findIdx.go,
    List.range_succ]

/-- Claim C2 (code bug): on an enumeration failure, and equally on a decode
failure of any file, `folderToTensors` runs its `.catch` handler, which calls
`reject()` with no argument — the rejection carries no error value at all,
let alone a human-readable or distinguishable one — and then calls
`process.exit(1)`, terminating the hosting process (the `true` component). -/
theorem folderToTensors_failure_exits_process :
    folderToTensors (fun _ => 0) (.error "EACCES: cannot list files under root") =
      (FolderOutcome.rejectedEmpty, true)
    ∧ folderToTensors (fun _ => 0) (.ok [badFile]) =
      (FolderOutcome.rejectedEmpty, true) := ⟨rfl, rfl⟩
